import Mathlib

/-!
Verification development for the DeepSeeker indexing and retrieval core
(`src-tauri/src`).  Each section shallowly embeds one Rust module:

* `chunker.rs`   — the structure-aware Markdown chunker, modelled at the
  level of the `pulldown_cmark` event stream that `MarkdownChunker::chunk`
  consumes (embedding the CommonMark parser itself is out of scope; the
  chunker's behaviour is a pure fold over events).
* `pdf_parser.rs` — `chunk_pdf_text`.
* `search.rs`    — `bm25_search_only`, `hybrid_search_full`, `search_hybrid`,
  with `f32` arithmetic idealised as real arithmetic and the FTS5 layer
  modelled as the rank-annotated candidate rows the SQL query returns.
* `commands.rs`  — the smart-diff embedding-reuse logic of
  `update_file_incremental`, and the write-unit structure (transactions vs.
  autocommitted single statements) of both ingestion entry points.
* `db.rs`        — `cleanup_ghost_data` over a relational-state model whose
  cascades and FTS triggers follow the declarations in `create_schema`.

String lengths are character counts (the Rust byte counts coincide on the
ASCII inputs used by all witnesses).
-/

/- ## Markdown chunker (`chunker.rs`) -/

/-- `MAX_CHUNK_SIZE` from `chunker.rs`. -/
def MAX_CHUNK_SIZE : Nat := 1000

/-- `MIN_CHUNK_SIZE` from `chunker.rs`. -/
def MIN_CHUNK_SIZE : Nat := 100

/-- The `pulldown_cmark` events that `MarkdownChunker::chunk` dispatches on.
`startCodeBlock none` is an indented block, `startCodeBlock (some l)` a fenced
block with info string `l`; `brk` covers both `SoftBreak` and `HardBreak`
(handled identically by the source); `other` is the catch-all `_` arm. -/
inductive MdEvent where
  | startHeading (level : Nat)
  | endHeading (level : Nat)
  | startCodeBlock (lang : Option String)
  | endCodeBlock
  | text (s : String)
  | brk
  | inlineCode (s : String)
  | other
  deriving DecidableEq, Repr

/-- `ChunkInfo` from `chunker.rs`. -/
structure ChunkInfo where
  content : String
  headers : List String
  chunk_type : String
  language : Option String
  start_line : Nat
  end_line : Nat
  deriving DecidableEq, Repr

/-- The fields of `MarkdownChunker` together with the local mutable state of
its `chunk` loop (`in_code_block`, `code_block_content`, `code_block_lang`,
`code_block_start_line`). -/
structure ChunkerState where
  header_stack : List String
  current_chunk : String
  current_line : Nat
  chunk_start_line : Nat
  chunks : List ChunkInfo
  in_code_block : Bool
  code_block_content : String
  code_block_lang : Option String
  code_block_start_line : Nat
  deriving Repr

/-- `text.matches('\n').count()` from the Rust `Event::Text` arm. -/
def countNewlines (s : String) : Nat := (s.toList.filter (· = '\n')).length

/-- Rust `str::trim`: drop leading and trailing whitespace.  Lean's
`Char.isWhitespace` coincides with Rust's whitespace predicate on ASCII. -/
def rustTrim (s : String) : String :=
  ⟨((s.data.dropWhile Char.isWhitespace).reverse.dropWhile
      Char.isWhitespace).reverse⟩

/-- `MarkdownChunker::flush_chunk`. -/
def flush_chunk (st : ChunkerState) (chunk_type : String) : ChunkerState :=
  let content := rustTrim st.current_chunk
  let st' :=
    if MIN_CHUNK_SIZE ≤ content.length then
      { st with chunks := st.chunks ++
          [{ content := content, headers := st.header_stack,
             chunk_type := chunk_type, language := none,
             start_line := st.chunk_start_line, end_line := st.current_line }] }
    else st
  { st' with current_chunk := "", chunk_start_line := st.current_line }

/-- One iteration of the `for event in parser` loop of
`MarkdownChunker::chunk`. -/
def mdStep (st : ChunkerState) (e : MdEvent) : ChunkerState :=
  match e with
  | .startHeading level =>
      let st := flush_chunk st "text"
      { st with header_stack := st.header_stack.take (level - 1) }
  | .endHeading level =>
      let header_text := rustTrim st.current_chunk
      let stack :=
        if level ≤ st.header_stack.length then st.header_stack.take (level - 1)
        else st.header_stack
      { st with header_stack := stack ++ [header_text], current_chunk := "" }
  | .startCodeBlock lang =>
      let st := flush_chunk st "text"
      { st with in_code_block := true,
                code_block_start_line := st.current_line,
                code_block_content := "",
                code_block_lang :=
                  match lang with
                  | some l => if l = "" then none else some l
                  | none => none }
  | .endCodeBlock =>
      let c : ChunkInfo :=
        { content := rustTrim st.code_block_content, headers := st.header_stack,
          chunk_type := "code", language := st.code_block_lang,
          start_line := st.code_block_start_line, end_line := st.current_line }
      let st := if c.content = "" then st else { st with chunks := st.chunks ++ [c] }
      { st with in_code_block := false, code_block_content := "",
                code_block_lang := none, chunk_start_line := st.current_line + 1 }
  | .text s =>
      let st :=
        if st.in_code_block then
          { st with code_block_content := st.code_block_content ++ s }
        else
          let st := { st with current_chunk := st.current_chunk ++ s }
          if MAX_CHUNK_SIZE < st.current_chunk.length then flush_chunk st "text" else st
      { st with current_line := st.current_line + countNewlines s }
  | .brk =>
      let st :=
        if st.in_code_block then
          { st with code_block_content := st.code_block_content ++ "\n" }
        else { st with current_chunk := st.current_chunk ++ "\n" }
      { st with current_line := st.current_line + 1 }
  | .inlineCode s =>
      { st with current_chunk := st.current_chunk ++ "`" ++ s ++ "`" }
  | .other => st

/-- The state built by `MarkdownChunker::new()`. -/
def newChunkerState : ChunkerState :=
  { header_stack := [], current_chunk := "", current_line := 1,
    chunk_start_line := 1, chunks := [], in_code_block := false,
    code_block_content := "", code_block_lang := none,
    code_block_start_line := 0 }

/-- Folding the event loop over a list of events. -/
def mdRun (st : ChunkerState) (events : List MdEvent) : ChunkerState :=
  events.foldl mdStep st

/-- `MarkdownChunker::chunk`: run the loop from a fresh chunker and flush the
trailing text chunk. -/
def mdChunk (events : List MdEvent) : List ChunkInfo :=
  (flush_chunk (mdRun newChunkerState events) "text").chunks

/- Structured view of a well-formed event stream, used to state claims that
quantify over "every code block of the input".  `pulldown_cmark` emits code
blocks as `Start(CodeBlock) … End(CodeBlock)` with only text and break events
in between, never nested; `flattenSegs` produces exactly those streams. -/

/-- Events `pulldown_cmark` emits inside a code block. -/
def isInnerCodeEvent : MdEvent → Bool
  | .text _ => true
  | .brk => true
  | _ => false

/-- Code-block delimiter events. -/
def isCodeDelim : MdEvent → Bool
  | .startCodeBlock _ => true
  | .endCodeBlock => true
  | _ => false

/-- A segment of a well-formed stream: either one whole code block or one
event outside any code block. -/
inductive MdSeg where
  | code (lang : Option String) (inner : List MdEvent)
  | plain (e : MdEvent)
  deriving DecidableEq, Repr

/-- Well-formedness of a segment. -/
def segWF : MdSeg → Bool
  | .code _ inner => inner.all isInnerCodeEvent
  | .plain e => !isCodeDelim e

/-- The event stream of a segment. -/
def segEvents : MdSeg → List MdEvent
  | .code lang inner => .startCodeBlock lang :: inner ++ [.endCodeBlock]
  | .plain e => [e]

/-- The event stream of a segment list. -/
def flattenSegs (segs : List MdSeg) : List MdEvent :=
  (segs.map segEvents).flatten

/-- The body a code block accumulates in `code_block_content`: the
concatenation of its text events, with breaks contributing `"\n"`. -/
def codeBodyAcc (acc : String) : List MdEvent → String
  | [] => acc
  | .text s :: rest => codeBodyAcc (acc ++ s) rest
  | .brk :: rest => codeBodyAcc (acc ++ "\n") rest
  | _ :: rest => codeBodyAcc acc rest

/-- The body of a code block with an empty accumulator. -/
def codeBody (inner : List MdEvent) : String := codeBodyAcc "" inner

/-- The contents of the code-typed chunks of a chunk list, in order. -/
def codeContents (cs : List ChunkInfo) : List String :=
  (cs.filter (fun c => c.chunk_type == "code")).map (fun c => c.content)

/-- The trimmed, non-empty code-block bodies of a segment list, in order. -/
def segCodeChunks (segs : List MdSeg) : List String :=
  segs.filterMap (fun s =>
    match s with
    | .code _ inner =>
        let b := rustTrim (codeBody inner)
        if b = "" then none else some b
    | .plain _ => none)

theorem codeContents_append (a b : List ChunkInfo) :
    codeContents (a ++ b) = codeContents a ++ codeContents b := by
  simp [codeContents]

theorem flush_chunk_chunks (st : ChunkerState) :
    codeContents (flush_chunk st "text").chunks = codeContents st.chunks := by
  unfold flush_chunk
  dsimp only
  split
  · simp [codeContents]
  · rfl

theorem flush_chunk_in_code (st : ChunkerState) (t : String) :
    (flush_chunk st t).in_code_block = st.in_code_block := by
  unfold flush_chunk
  dsimp only
  split <;> rfl

theorem flush_chunk_header_stack (st : ChunkerState) (t : String) :
    (flush_chunk st t).header_stack = st.header_stack := by
  unfold flush_chunk
  dsimp only
  split <;> rfl

theorem codeBodyAcc_append (inner : List MdEvent) (acc : String) :
    codeBodyAcc acc inner = acc ++ codeBodyAcc "" inner := by
  induction inner generalizing acc with
  | nil => simp [codeBodyAcc]
  | cons e rest ih =>
      cases e with
      | text s =>
          show codeBodyAcc (acc ++ s) rest = acc ++ codeBodyAcc ("" ++ s) rest
          rw [ih (acc ++ s), ih ("" ++ s), String.empty_append, String.append_assoc]
      | brk =>
          show codeBodyAcc (acc ++ "\n") rest = acc ++ codeBodyAcc ("" ++ "\n") rest
          rw [ih (acc ++ "\n"), ih ("" ++ "\n"), String.empty_append,
            String.append_assoc]
      | startHeading l => exact ih acc
      | endHeading l => exact ih acc
      | startCodeBlock lang => exact ih acc
      | endCodeBlock => exact ih acc
      | inlineCode s => exact ih acc
      | other => exact ih acc

theorem mdStep_plain (st : ChunkerState) (e : MdEvent)
    (he : isCodeDelim e = false) (hst : st.in_code_block = false) :
    (mdStep st e).in_code_block = false ∧
      codeContents (mdStep st e).chunks = codeContents st.chunks := by
  cases e with
  | startCodeBlock lang => simp [isCodeDelim] at he
  | endCodeBlock => simp [isCodeDelim] at he
  | startHeading l =>
      exact ⟨by simp [mdStep, flush_chunk_in_code, hst],
             by simp [mdStep, flush_chunk_chunks]⟩
  | endHeading l => exact ⟨hst, rfl⟩
  | text s =>
      refine ⟨?_, ?_⟩ <;>
      · simp only [mdStep, hst, Bool.false_eq_true, if_false]
        split
        · simp [flush_chunk_in_code, flush_chunk_chunks, hst]
        · simp [hst]
  | brk =>
      refine ⟨?_, ?_⟩ <;> simp [mdStep, hst]
  | inlineCode s => exact ⟨hst, rfl⟩
  | other => exact ⟨hst, rfl⟩

theorem mdRun_cons (st : ChunkerState) (e : MdEvent) (rest : List MdEvent) :
    mdRun st (e :: rest) = mdRun (mdStep st e) rest := rfl

theorem mdRun_append (st : ChunkerState) (l₁ l₂ : List MdEvent) :
    mdRun st (l₁ ++ l₂) = mdRun (mdRun st l₁) l₂ :=
  List.foldl_append mdStep st l₁ l₂

theorem mdRun_inner (inner : List MdEvent) (st : ChunkerState)
    (hin : inner.all isInnerCodeEvent = true) (hst : st.in_code_block = true) :
    (mdRun st inner).in_code_block = true ∧
    (mdRun st inner).chunks = st.chunks ∧
    (mdRun st inner).code_block_content
      = st.code_block_content ++ codeBody inner := by
  induction inner generalizing st with
  | nil => exact ⟨hst, rfl, by simp [mdRun, codeBody, codeBodyAcc]⟩
  | cons e rest ih =>
      simp only [List.all_cons, Bool.and_eq_true] at hin
      obtain ⟨he, hrest⟩ := hin
      cases e with
      | text s =>
          have h1 : (mdStep st (.text s)).in_code_block = true := by
            simp [mdStep, hst]
          have h2 : (mdStep st (.text s)).chunks = st.chunks := by
            simp [mdStep, hst]
          have h3 : (mdStep st (.text s)).code_block_content
              = st.code_block_content ++ s := by
            simp [mdStep, hst]
          obtain ⟨a, b, c⟩ := ih (mdStep st (.text s)) hrest h1
          refine ⟨by rw [mdRun_cons]; exact a,
                  by rw [mdRun_cons, b, h2],
                  ?_⟩
          rw [mdRun_cons, c, h3]
          show _ = st.code_block_content ++ codeBodyAcc ("" ++ s) rest
          rw [codeBodyAcc_append rest ("" ++ s), String.empty_append,
            String.append_assoc]
          rfl
      | brk =>
          have h1 : (mdStep st .brk).in_code_block = true := by
            simp [mdStep, hst]
          have h2 : (mdStep st .brk).chunks = st.chunks := by
            simp [mdStep, hst]
          have h3 : (mdStep st .brk).code_block_content
              = st.code_block_content ++ "\n" := by
            simp [mdStep, hst]
          obtain ⟨a, b, c⟩ := ih (mdStep st .brk) hrest h1
          refine ⟨by rw [mdRun_cons]; exact a,
                  by rw [mdRun_cons, b, h2],
                  ?_⟩
          rw [mdRun_cons, c, h3]
          show _ = st.code_block_content ++ codeBodyAcc ("" ++ "\n") rest
          rw [codeBodyAcc_append rest ("" ++ "\n"), String.empty_append,
            String.append_assoc]
          rfl
      | startHeading l => simp [isInnerCodeEvent] at he
      | endHeading l => simp [isInnerCodeEvent] at he
      | startCodeBlock lang => simp [isInnerCodeEvent] at he
      | endCodeBlock => simp [isInnerCodeEvent] at he
      | inlineCode s => simp [isInnerCodeEvent] at he
      | other => simp [isInnerCodeEvent] at he

theorem mdRun_codeSeg (lang : Option String) (inner : List MdEvent)
    (st : ChunkerState) (hin : inner.all isInnerCodeEvent = true)
    (hst : st.in_code_block = false) :
    (mdRun st (segEvents (.code lang inner))).in_code_block = false ∧
    codeContents (mdRun st (segEvents (.code lang inner))).chunks
      = codeContents st.chunks ++
        (if rustTrim (codeBody inner) = "" then [] else [rustTrim (codeBody inner)]) := by
  have hseg : segEvents (.code lang inner)
      = .startCodeBlock lang :: (inner ++ [.endCodeBlock]) := rfl
  rw [hseg, mdRun_cons, mdRun_append]
  set st1 := mdStep st (.startCodeBlock lang) with hst1
  have h1a : st1.in_code_block = true := by simp [hst1, mdStep]
  have h1b : codeContents st1.chunks = codeContents st.chunks := by
    simp [hst1, mdStep, flush_chunk_chunks]
  have h1c : st1.code_block_content = "" := by simp [hst1, mdStep]
  obtain ⟨h2a, h2b, h2c⟩ := mdRun_inner inner st1 hin h1a
  set st2 := mdRun st1 inner with hst2
  rw [h1c, String.empty_append] at h2c
  show (mdRun st2 [.endCodeBlock]).in_code_block = false ∧
    codeContents (mdRun st2 [.endCodeBlock]).chunks = _
  have hend : mdRun st2 [.endCodeBlock] = mdStep st2 .endCodeBlock := rfl
  rw [hend]
  constructor
  · simp [mdStep]
  · by_cases hb : rustTrim st2.code_block_content = ""
    · have hchunks : codeContents (mdStep st2 .endCodeBlock).chunks
          = codeContents st2.chunks := by
        simp [mdStep, hb]
      have hb' : rustTrim (codeBody inner) = "" := by rw [← h2c]; exact hb
      rw [hchunks, h2b, h1b, if_pos hb', List.append_nil]
    · have hchunks : codeContents (mdStep st2 .endCodeBlock).chunks
          = codeContents st2.chunks ++ [rustTrim st2.code_block_content] := by
        simp [mdStep, hb, codeContents]
      have hb' : ¬ rustTrim (codeBody inner) = "" := by rw [← h2c]; exact hb
      rw [hchunks, h2b, h1b, if_neg hb', h2c]

theorem mdRun_segs (segs : List MdSeg) (st : ChunkerState)
    (h : segs.all segWF = true) (hst : st.in_code_block = false) :
    (mdRun st (flattenSegs segs)).in_code_block = false ∧
    codeContents (mdRun st (flattenSegs segs)).chunks
      = codeContents st.chunks ++ segCodeChunks segs := by
  induction segs generalizing st with
  | nil =>
      refine ⟨hst, ?_⟩
      simp [flattenSegs, segCodeChunks, mdRun]
  | cons sg rest ih =>
      simp only [List.all_cons, Bool.and_eq_true] at h
      obtain ⟨hsg, hrest⟩ := h
      have hflat : flattenSegs (sg :: rest) = segEvents sg ++ flattenSegs rest := by
        simp [flattenSegs]
      rw [hflat, mdRun_append]
      cases sg with
      | code lang inner =>
          have hwf : inner.all isInnerCodeEvent = true := hsg
          obtain ⟨h1, h2⟩ := mdRun_codeSeg lang inner st hwf hst
          obtain ⟨a, b⟩ := ih (mdRun st (segEvents (.code lang inner))) hrest h1
          refine ⟨a, ?_⟩
          rw [b, h2]
          by_cases hb : rustTrim (codeBody inner) = "" <;>
            simp [segCodeChunks, hb]
      | plain e =>
          have hd : isCodeDelim e = false := by
            simpa [segWF] using hsg
          obtain ⟨h1, h2⟩ := mdStep_plain st e hd hst
          have hone : mdRun st (segEvents (.plain e)) = mdStep st e := rfl
          rw [hone]
          obtain ⟨a, b⟩ := ih (mdStep st e) hrest h1
          refine ⟨a, ?_⟩
          rw [b, h2]
          simp [segCodeChunks]

/-- C1.  For every well-formed Markdown event stream, the contents of the
code-typed chunks emitted by `MarkdownChunker::chunk` are exactly the
trimmed bodies of the stream's fenced/indented code blocks, in order, with
blocks whose trimmed body is empty omitted: each non-empty block yields
exactly one code chunk holding its entire (trimmed) body, empty blocks yield
nothing, and no block's body is split across chunks. -/
theorem code_blocks_never_split (segs : List MdSeg) (h : segs.all segWF = true) :
    codeContents (mdChunk (flattenSegs segs)) = segCodeChunks segs := by
  obtain ⟨-, h2⟩ := mdRun_segs segs newChunkerState h rfl
  unfold mdChunk
  rw [flush_chunk_chunks, h2]
  simp [codeContents, newChunkerState]

/-- Concrete well-formed stream used to instantiate `code_blocks_never_split`:
a heading, one fenced block with two lines of code, and one indented block
whose body trims to empty. -/
def c1SegsEx : List MdSeg :=
  [.plain (.startHeading 1), .plain (.text "Title"), .plain (.endHeading 1),
   .code (some "rust") [.text "let x = 1;", .brk, .text "let y = 2;"],
   .code none [.text "   "]]

/-- Witness for `code_blocks_never_split` at `c1SegsEx`: the hypotheses hold
and the single non-empty code block comes out as exactly one code chunk. -/
theorem code_blocks_never_split_witness :
    (c1SegsEx.all segWF = true) ∧
    codeContents (mdChunk (flattenSegs c1SegsEx)) = segCodeChunks c1SegsEx ∧
    segCodeChunks c1SegsEx = ["let x = 1;\nlet y = 2;"] :=
  ⟨by decide, code_blocks_never_split c1SegsEx (by decide), by decide⟩

/-- Events that may occur between `Start(Heading)` and `End(Heading)`:
everything except heading and code-block delimiters. -/
def isInlineEvent : MdEvent → Bool
  | .text _ => true
  | .brk => true
  | .inlineCode _ => true
  | .other => true
  | _ => false

theorem mdStep_inline_header_stack (st : ChunkerState) (e : MdEvent)
    (he : isInlineEvent e = true) :
    (mdStep st e).header_stack = st.header_stack := by
  cases e with
  | text s =>
      simp only [mdStep]
      split
      · rfl
      · split
        · exact flush_chunk_header_stack _ _
        · rfl
  | brk =>
      simp only [mdStep]
      split <;> rfl
  | inlineCode s => rfl
  | other => rfl
  | startHeading l => simp [isInlineEvent] at he
  | endHeading l => simp [isInlineEvent] at he
  | startCodeBlock lang => simp [isInlineEvent] at he
  | endCodeBlock => simp [isInlineEvent] at he

theorem mdRun_inline_header_stack (inner : List MdEvent) (st : ChunkerState)
    (hin : inner.all isInlineEvent = true) :
    (mdRun st inner).header_stack = st.header_stack := by
  induction inner generalizing st with
  | nil => rfl
  | cons e rest ih =>
      simp only [List.all_cons, Bool.and_eq_true] at hin
      rw [mdRun_cons, ih (mdStep st e) hin.2, mdStep_inline_header_stack st e hin.1]

/-- Event list of the Markdown document

  `### A`, then `## B`, then one paragraph of 100 characters

as produced by `pulldown_cmark`: a depth-3 heading, a depth-2 heading, text. -/
def c2Events : List MdEvent :=
  [.startHeading 3, .text "A", .endHeading 3,
   .startHeading 2, .text "B", .endHeading 2,
   .text (String.mk (List.replicate 100 'a'))]

/-- Counterexample to C2.  In `c2Events` a depth-3 heading (text `"A"`) is
processed before a depth-2 heading (text `"B"`), yet the chunk emitted after
the depth-2 heading still carries `"A"` in its `header_stack`: the claimed
reset removes only stack positions `≥ d − 1`, and `"A"` was pushed at
position 0 because the stack was empty when the `H3` arrived, so the `H2`
does not evict it. -/
theorem h2_after_h3_counterexample :
    (mdChunk c2Events).map (fun c => c.headers) = [["A", "B"]] := by decide

/-- C2 as amended.  Processing a heading of depth `d ≥ 1` (its `Start` event,
any run of inline events carrying its text, and its `End` event) replaces the
header stack by its first `d − 1` entries with the heading's text appended.
Hence every stack entry at position `≥ d − 1` from before the heading is
discarded — but an entry that happens to sit at a position `< d − 1` survives
even if it was produced by a heading of depth `> d` (possible when heading
depths skip levels relative to the stack length, as in
`h2_after_h3_counterexample`). -/
theorem heading_truncates_stack (st : ChunkerState) (d : Nat) (hd : 1 ≤ d)
    (inner : List MdEvent) (hin : inner.all isInlineEvent = true) :
    ∃ t, (mdRun st (.startHeading d :: (inner ++ [.endHeading d]))).header_stack
        = st.header_stack.take (d - 1) ++ [t] := by
  rw [mdRun_cons, mdRun_append]
  have h1 : (mdStep st (.startHeading d)).header_stack
      = st.header_stack.take (d - 1) := by
    simp [mdStep, flush_chunk_header_stack]
  have h2 : (mdRun (mdStep st (.startHeading d)) inner).header_stack
      = st.header_stack.take (d - 1) :=
    (mdRun_inline_header_stack inner _ hin).trans h1
  set st2 := mdRun (mdStep st (.startHeading d)) inner with hst2
  have hlen : st2.header_stack.length ≤ d - 1 := by
    rw [h2]
    exact (List.length_take _ _).le.trans (Nat.min_le_left _ _)
  have hnot : ¬ d ≤ st2.header_stack.length := by
    intro hcon
    have := hcon.trans hlen
    omega
  refine ⟨rustTrim st2.current_chunk, ?_⟩
  show (mdStep st2 (.endHeading d)).header_stack = _
  simp only [mdStep, if_neg hnot]
  rw [h2]

/-- Witness for `heading_truncates_stack`: a depth-2 heading with text `"B"`
processed from the fresh chunker state. -/
theorem heading_truncates_stack_witness :
    (1 ≤ 2) ∧
    ∃ t, (mdRun newChunkerState
        (.startHeading 2 :: ([.text "B"] ++ [.endHeading 2]))).header_stack
      = newChunkerState.header_stack.take (2 - 1) ++ [t] :=
  ⟨by decide,
   heading_truncates_stack newChunkerState 2 (by decide) [.text "B"] (by decide)⟩

/-- Event list of the Markdown document

  a fenced code block `x` followed by one 100-character single-line paragraph

as produced by `pulldown_cmark`. -/
def c8Events : List MdEvent :=
  [.startCodeBlock (some "py"), .text "x\n", .endCodeBlock,
   .text (String.mk (List.replicate 100 'a'))]

/-- C8 fails on the Markdown chunker.  After a code block,
`MarkdownChunker::chunk` sets `chunk_start_line := current_line + 1`; a
following paragraph that contains no newline leaves `current_line` unchanged,
so the flushed text chunk has `start_line = 3 > end_line = 2`, violating
`start_line ≤ end_line`. -/
theorem line_span_violation :
    (mdChunk c8Events).map (fun c => (c.start_line, c.end_line))
        = [(1, 2), (3, 2)] ∧
    ∃ c ∈ mdChunk c8Events, c.end_line < c.start_line := by decide

/- ## Hybrid retrieval (`search.rs`)

`f32` arithmetic is idealised as real arithmetic.  The FTS5 layer is modelled
by the list of candidate rows the SQL query in `bm25_search_only` joins
together, each carrying the raw FTS5 `rank` in its `score` field; the SQL
`ORDER BY rank` / `LIMIT` clauses and the Rust `sort_by` (a stable sort, as
Rust guarantees) are modelled by stable insertion sorts, which produce the
same output. -/

/-- `BM25_WEIGHT` from `search.rs`. -/
noncomputable def BM25_WEIGHT : ℝ := 3 / 10

/-- `VECTOR_WEIGHT` from `search.rs`. -/
noncomputable def VECTOR_WEIGHT : ℝ := 7 / 10

/-- `SearchResult` from `models.rs` (the JSON metadata payload is not
modelled; no claim mentions it). -/
structure SearchResult where
  chunk_id : Int
  doc_id : Int
  document_path : String
  content : String
  score : ℝ
  start_line : Nat
  end_line : Nat

/-- `EmbeddingModel::normalize` from `embeddings.rs`. -/
noncomputable def l2_normalize (v : List ℝ) : List ℝ :=
  let norm := Real.sqrt (v.map (fun x => x * x)).sum
  if norm = 0 then v else v.map (fun x => x / norm)

/-- `EmbeddingModel::cosine_similarity` from `embeddings.rs`. -/
noncomputable def cosine_similarity (a b : List ℝ) : ℝ :=
  if a.length ≠ b.length then 0
  else
    let dot := ((a.zip b).map (fun p => p.1 * p.2)).sum
    let na := Real.sqrt (a.map (fun x => x * x)).sum
    let nb := Real.sqrt (b.map (fun x => x * x)).sum
    if na = 0 ∨ nb = 0 then 0 else dot / (na * nb)

/-- Stable descending insertion by `score`: the insertion point is before the
first element whose score is not greater, so equal-scored elements keep their
original relative order — the order Rust's stable
`sort_by(|a, b| b.score.partial_cmp(&a.score))` produces. -/
noncomputable def insertDescByScore (x : SearchResult) :
    List SearchResult → List SearchResult
  | [] => [x]
  | y :: ys => if x.score < y.score then y :: insertDescByScore x ys else x :: y :: ys

/-- Stable sort by descending `score` (step 5 of `hybrid_search_full`). -/
noncomputable def sortByScoreDesc : List SearchResult → List SearchResult
  | [] => []
  | x :: xs => insertDescByScore x (sortByScoreDesc xs)

/-- Stable ascending insertion by `score` (SQL `ORDER BY rank`). -/
noncomputable def insertAscByScore (x : SearchResult) :
    List SearchResult → List SearchResult
  | [] => [x]
  | y :: ys => if y.score < x.score then y :: insertAscByScore x ys else x :: y :: ys

/-- Stable sort by ascending `score`: the SQL `ORDER BY rank` of
`bm25_search_only`, `rank` being stored in `score`. -/
noncomputable def sortByScoreAsc : List SearchResult → List SearchResult
  | [] => []
  | x :: xs => insertAscByScore x (sortByScoreAsc xs)

/-- `bm25_search_only` from `search.rs`: the FTS rows ordered by rank
ascending, truncated by `LIMIT`, each row's `score` being the raw FTS5
`rank`. -/
noncomputable def bm25_search_only (ftsRows : List SearchResult) (limit : Nat) :
    List SearchResult :=
  (sortByScoreAsc ftsRows).take limit

/-- The vector-similarity factor of step 4 of `hybrid_search_full`:
`embMap` is the chunk-id-indexed embedding lookup built in step 3 (`none`
when the id is absent from the map, `some []` when the stored blob was SQL
NULL, deserialised there to an empty vector). -/
noncomputable def vec_score_of (qn : List ℝ) (emb : Option (List ℝ)) : ℝ :=
  match emb with
  | some e => if e.isEmpty then 0 else cosine_similarity qn (l2_normalize e)
  | none => 0

/-- `hybrid_search_full` from `search.rs`. -/
noncomputable def hybrid_search_full (q : List ℝ) (embMap : Int → Option (List ℝ))
    (ftsRows : List SearchResult) (limit : Nat) : List SearchResult :=
  if (bm25_search_only ftsRows (limit * 3)).isEmpty then []
  else
    (sortByScoreDesc ((bm25_search_only ftsRows (limit * 3)).map (fun r =>
      { r with score :=
          VECTOR_WEIGHT * vec_score_of (l2_normalize q) (embMap r.chunk_id)
            + BM25_WEIGHT * (1 / (1 + |r.score|)) }))).take limit

/-- `search_hybrid` from `search.rs`: `modelAvailable` is whether
`EmbeddingModel::new()` succeeded. -/
noncomputable def search_hybrid (modelAvailable : Bool) (q : List ℝ)
    (embMap : Int → Option (List ℝ)) (ftsRows : List SearchResult)
    (limit : Nat) : List SearchResult :=
  if modelAvailable then hybrid_search_full q embMap ftsRows limit
  else bm25_search_only ftsRows limit

theorem mem_insertDescByScore {x a : SearchResult} {l : List SearchResult} :
    a ∈ insertDescByScore x l ↔ a = x ∨ a ∈ l := by
  induction l with
  | nil => simp [insertDescByScore]
  | cons y ys ih =>
      simp only [insertDescByScore]
      split
      · simp only [List.mem_cons, ih]
        tauto
      · simp [List.mem_cons]

theorem mem_sortByScoreDesc {a : SearchResult} {l : List SearchResult} :
    a ∈ sortByScoreDesc l ↔ a ∈ l := by
  induction l with
  | nil => simp [sortByScoreDesc]
  | cons y ys ih =>
      simp only [sortByScoreDesc, mem_insertDescByScore, ih, List.mem_cons]

theorem mem_insertAscByScore {x a : SearchResult} {l : List SearchResult} :
    a ∈ insertAscByScore x l ↔ a = x ∨ a ∈ l := by
  induction l with
  | nil => simp [insertAscByScore]
  | cons y ys ih =>
      simp only [insertAscByScore]
      split
      · simp only [List.mem_cons, ih]
        tauto
      · simp [List.mem_cons]

theorem mem_sortByScoreAsc {a : SearchResult} {l : List SearchResult} :
    a ∈ sortByScoreAsc l ↔ a ∈ l := by
  induction l with
  | nil => simp [sortByScoreAsc]
  | cons y ys ih =>
      simp only [sortByScoreAsc, mem_insertAscByScore, ih, List.mem_cons]

theorem pairwise_insertDescByScore {x : SearchResult} {l : List SearchResult}
    (h : l.Pairwise (fun a b => b.score ≤ a.score)) :
    (insertDescByScore x l).Pairwise (fun a b => b.score ≤ a.score) := by
  induction l with
  | nil => simp [insertDescByScore]
  | cons y ys ih =>
      rw [List.pairwise_cons] at h
      by_cases hxy : x.score < y.score
      · rw [insertDescByScore, if_pos hxy, List.pairwise_cons]
        refine ⟨?_, ih h.2⟩
        intro a ha
        rcases mem_insertDescByScore.1 ha with rfl | ha
        · exact hxy.le
        · exact h.1 a ha
      · rw [insertDescByScore, if_neg hxy, List.pairwise_cons]
        refine ⟨?_, List.pairwise_cons.2 h⟩
        intro a ha
        rcases List.mem_cons.1 ha with rfl | ha
        · exact not_lt.1 hxy
        · exact le_trans (h.1 a ha) (not_lt.1 hxy)

theorem pairwise_sortByScoreDesc (l : List SearchResult) :
    (sortByScoreDesc l).Pairwise (fun a b => b.score ≤ a.score) := by
  induction l with
  | nil => simp [sortByScoreDesc]
  | cons y ys ih => exact pairwise_insertDescByScore ih

theorem pairwise_insertAscByScore {x : SearchResult} {l : List SearchResult}
    (h : l.Pairwise (fun a b => a.score ≤ b.score)) :
    (insertAscByScore x l).Pairwise (fun a b => a.score ≤ b.score) := by
  induction l with
  | nil => simp [insertAscByScore]
  | cons y ys ih =>
      rw [List.pairwise_cons] at h
      by_cases hyx : y.score < x.score
      · rw [insertAscByScore, if_pos hyx, List.pairwise_cons]
        refine ⟨?_, ih h.2⟩
        intro a ha
        rcases mem_insertAscByScore.1 ha with rfl | ha
        · exact hyx.le
        · exact h.1 a ha
      · rw [insertAscByScore, if_neg hyx, List.pairwise_cons]
        refine ⟨?_, List.pairwise_cons.2 h⟩
        intro a ha
        rcases List.mem_cons.1 ha with rfl | ha
        · exact not_lt.1 hyx
        · exact le_trans (not_lt.1 hyx) (h.1 a ha)

theorem pairwise_sortByScoreAsc (l : List SearchResult) :
    (sortByScoreAsc l).Pairwise (fun a b => a.score ≤ b.score) := by
  induction l with
  | nil => simp [sortByScoreAsc]
  | cons y ys ih => exact pairwise_insertAscByScore ih

/-- C3.  With the embedding model available, every returned result is a BM25
candidate re-scored to exactly
`VECTOR_WEIGHT · cos(normalize q, normalize c) + BM25_WEIGHT · 1/(1+|rank|)`,
the weights sum to 1 with the vector weight dominant, and a candidate whose
stored embedding is absent contributes 0 as its cosine factor. -/
theorem hybrid_score_formula (q : List ℝ) (embMap : Int → Option (List ℝ))
    (ftsRows : List SearchResult) (limit : Nat) (r : SearchResult)
    (hr : r ∈ hybrid_search_full q embMap ftsRows limit) :
    (VECTOR_WEIGHT + BM25_WEIGHT = 1 ∧ BM25_WEIGHT < VECTOR_WEIGHT) ∧
    ∃ c ∈ bm25_search_only ftsRows (limit * 3),
      r.chunk_id = c.chunk_id ∧
      r.score = VECTOR_WEIGHT * vec_score_of (l2_normalize q) (embMap c.chunk_id)
          + BM25_WEIGHT * (1 / (1 + |c.score|)) ∧
      (embMap c.chunk_id = none →
        vec_score_of (l2_normalize q) (embMap c.chunk_id) = 0) ∧
      (∀ e, embMap c.chunk_id = some e → e.isEmpty = false →
        vec_score_of (l2_normalize q) (embMap c.chunk_id)
          = cosine_similarity (l2_normalize q) (l2_normalize e)) := by
  refine ⟨⟨by norm_num [VECTOR_WEIGHT, BM25_WEIGHT],
           by norm_num [VECTOR_WEIGHT, BM25_WEIGHT]⟩, ?_⟩
  unfold hybrid_search_full at hr
  split at hr
  · exact absurd hr (List.not_mem_nil r)
  · have h1 := List.take_subset _ _ hr
    have h2 := mem_sortByScoreDesc.1 h1
    obtain ⟨c, hc, hrc⟩ := List.mem_map.1 h2
    refine ⟨c, hc, ?_, ?_, ?_, ?_⟩
    · rw [← hrc]
    · rw [← hrc]
    · intro hnone
      rw [hnone]
      rfl
    · intro e he hne
      rw [he]
      simp [vec_score_of, hne]

/-- Concrete BM25 candidate row with rank −1 used by witnesses. -/
noncomputable def candEx : SearchResult :=
  { chunk_id := 1, doc_id := 1, document_path := "a.md", content := "rust",
    score := -1, start_line := 1, end_line := 1 }

/-- The output row `hybrid_search_full` produces for `candEx` when no
embedding is stored. -/
noncomputable def scoredEx : SearchResult :=
  { candEx with score :=
      (VECTOR_WEIGHT * vec_score_of (l2_normalize [])
          ((fun _ : Int => (none : Option (List ℝ))) candEx.chunk_id)
        + BM25_WEIGHT * (1 / (1 + |candEx.score|))) }

/-- Witness for `hybrid_score_formula`: a single candidate with no stored
embedding, query embedding `[]`, limit 10. -/
theorem hybrid_score_formula_witness :
    (VECTOR_WEIGHT + BM25_WEIGHT = 1 ∧ BM25_WEIGHT < VECTOR_WEIGHT) ∧
    ∃ c ∈ bm25_search_only [candEx] (10 * 3),
      scoredEx.chunk_id = c.chunk_id ∧
      scoredEx.score = VECTOR_WEIGHT * vec_score_of (l2_normalize [])
            ((fun _ : Int => (none : Option (List ℝ))) c.chunk_id)
          + BM25_WEIGHT * (1 / (1 + |c.score|)) ∧
      ((fun _ : Int => (none : Option (List ℝ))) c.chunk_id = none →
        vec_score_of (l2_normalize [])
          ((fun _ : Int => (none : Option (List ℝ))) c.chunk_id) = 0) ∧
      (∀ e, (fun _ : Int => (none : Option (List ℝ))) c.chunk_id = some e →
        e.isEmpty = false →
        vec_score_of (l2_normalize [])
            ((fun _ : Int => (none : Option (List ℝ))) c.chunk_id)
          = cosine_similarity (l2_normalize []) (l2_normalize e)) :=
  hybrid_score_formula [] (fun _ => none) [candEx] 10 scoredEx
    (show scoredEx ∈ [scoredEx] from List.mem_singleton.2 rfl)

/-- Candidate rows with identical BM25 rank and descending chunk ids, used to
exhibit the tie behaviour of the hybrid sort. -/
noncomputable def tieA : SearchResult :=
  { chunk_id := 2, doc_id := 1, document_path := "a.md", content := "x",
    score := -1, start_line := 1, end_line := 1 }

/-- Second tied candidate, with the smaller chunk id. -/
noncomputable def tieB : SearchResult :=
  { chunk_id := 1, doc_id := 1, document_path := "a.md", content := "y",
    score := -1, start_line := 1, end_line := 1 }

/-- The re-scored row `hybrid_search_full` builds when no embedding is
stored. -/
noncomputable def tieScored (r : SearchResult) : SearchResult :=
  { r with score :=
      (VECTOR_WEIGHT * vec_score_of (l2_normalize [])
          ((fun _ : Int => (none : Option (List ℝ))) r.chunk_id)
        + BM25_WEIGHT * (1 / (1 + |r.score|))) }

theorem tie_hybrid_eval :
    hybrid_search_full [] (fun _ => none) [tieA, tieB] 10
      = [tieScored tieA, tieScored tieB] := by
  have hansA : ¬ tieB.score < tieA.score := by
    simp [tieA, tieB]
  have hasc : sortByScoreAsc [tieA, tieB] = [tieA, tieB] := by
    show insertAscByScore tieA (insertAscByScore tieB (sortByScoreAsc [])) = _
    rw [sortByScoreAsc]
    show insertAscByScore tieA [tieB] = _
    rw [insertAscByScore, if_neg hansA]
  have hbm : bm25_search_only [tieA, tieB] (10 * 3) = [tieA, tieB] := by
    unfold bm25_search_only
    rw [hasc]
    rfl
  have hscores : (tieScored tieA).score = (tieScored tieB).score := by
    simp [tieScored, tieA, tieB]
  have hdesc : sortByScoreDesc [tieScored tieA, tieScored tieB]
      = [tieScored tieA, tieScored tieB] := by
    show insertDescByScore (tieScored tieA)
        (insertDescByScore (tieScored tieB) (sortByScoreDesc [])) = _
    rw [sortByScoreDesc]
    show insertDescByScore (tieScored tieA) [tieScored tieB] = _
    rw [insertDescByScore, if_neg (by rw [hscores]; exact lt_irrefl _)]
  have hfinal : (sortByScoreDesc [tieScored tieA, tieScored tieB]).take 10
      = [tieScored tieA, tieScored tieB] := by
    rw [hdesc]
    rfl
  unfold hybrid_search_full
  rw [hbm]
  simp only [List.isEmpty_cons, Bool.false_eq_true, if_false]
  exact hfinal

/-- Counterexample to C9.  Two candidates tie on the hybrid score while their
chunk ids arrive in descending order `[2, 1]`; the returned order is still
`[2, 1]` — the sort is stable on the BM25 order and performs no tie-break by
ascending chunk id. -/
theorem tie_break_counterexample :
    ((hybrid_search_full [] (fun _ => none) [tieA, tieB] 10).map
        (fun r => r.chunk_id) = [2, 1]) ∧
    ∀ r ∈ hybrid_search_full [] (fun _ => none) [tieA, tieB] 10,
      r.score = BM25_WEIGHT * (1 / 2) := by
  rw [tie_hybrid_eval]
  constructor
  · simp [tieScored, tieA, tieB]
  · intro r hr
    rcases List.mem_cons.1 hr with rfl | hr
    · simp only [tieScored, tieA, vec_score_of]
      norm_num
    · rcases List.mem_cons.1 hr with rfl | hr
      · simp only [tieScored, tieB, vec_score_of]
        norm_num
      · exact absurd hr (List.not_mem_nil r)

/-- C9 as amended.  Hybrid results are returned sorted by descending hybrid
score.  No tie-break on chunk id is applied: equal scores keep the BM25
candidate order (the sort is stable — `tie_break_counterexample`), and the
output is still a deterministic function of the stored state and query. -/
theorem hybrid_results_sorted (q : List ℝ) (embMap : Int → Option (List ℝ))
    (ftsRows : List SearchResult) (limit : Nat) :
    (hybrid_search_full q embMap ftsRows limit).Pairwise
      (fun a b => b.score ≤ a.score) := by
  unfold hybrid_search_full
  split
  · simp
  · exact List.Pairwise.sublist (List.take_sublist _ _)
      (pairwise_sortByScoreDesc _)

/-- FTS candidate row with the better (more negative) rank. -/
noncomputable def ftsLow : SearchResult :=
  { chunk_id := 1, doc_id := 1, document_path := "a.md", content := "x",
    score := -5, start_line := 1, end_line := 1 }

/-- FTS candidate row with the worse (less negative) rank. -/
noncomputable def ftsHigh : SearchResult :=
  { chunk_id := 2, doc_id := 1, document_path := "a.md", content := "y",
    score := -1, start_line := 1, end_line := 1 }

/-- Counterexample to C4.  With the embedding backend unavailable the
returned scores are the raw FTS5 ranks `[-5, -1]`, not the normalized values
`1/(1+|rank|)` — for the first row that would be `1/6 ≠ -5` — and the order
is rank-ascending (the engine's best-first order), which is *ascending*, not
descending, in the normalized score. -/
theorem bm25_fallback_counterexample :
    ((search_hybrid false [] (fun _ => none) [ftsLow, ftsHigh] 10).map
        (fun r => r.score) = [-5, -1]) ∧
    (1 : ℝ) / (1 + |(-5 : ℝ)|) ≠ -5 := by
  constructor
  · have h1 : ¬ ftsHigh.score < ftsLow.score := by
      simp only [ftsLow, ftsHigh]
      norm_num
    have hasc : sortByScoreAsc [ftsLow, ftsHigh] = [ftsLow, ftsHigh] := by
      show insertAscByScore ftsLow (insertAscByScore ftsHigh (sortByScoreAsc []))
          = _
      rw [sortByScoreAsc]
      show insertAscByScore ftsLow [ftsHigh] = _
      rw [insertAscByScore, if_neg h1]
    show (bm25_search_only [ftsLow, ftsHigh] 10).map (fun r => r.score)
        = [-5, -1]
    unfold bm25_search_only
    rw [hasc]
    simp [ftsLow, ftsHigh]
  · have h5 : |(-5 : ℝ)| = 5 := by
      rw [abs_neg]
      exact abs_of_nonneg (by norm_num)
    rw [h5]
    norm_num

/-- C4 as amended.  With the embedding backend unavailable, search returns
the FTS candidates unchanged — each score is the raw FTS5 rank, with no
`1/(1+|rank|)` normalization — ordered by rank ascending (the engine's
best-match-first order) and truncated to the requested `k`. -/
theorem bm25_fallback_behavior (q : List ℝ) (embMap : Int → Option (List ℝ))
    (ftsRows : List SearchResult) (k : Nat) :
    (∀ r ∈ search_hybrid false q embMap ftsRows k, r ∈ ftsRows) ∧
    (search_hybrid false q embMap ftsRows k).length ≤ k ∧
    (search_hybrid false q embMap ftsRows k).Pairwise
      (fun a b => a.score ≤ b.score) := by
  have hdef : search_hybrid false q embMap ftsRows k
      = (sortByScoreAsc ftsRows).take k := rfl
  rw [hdef]
  refine ⟨?_, List.length_take_le _ _, ?_⟩
  · intro r hr
    exact mem_sortByScoreAsc.1 (List.take_subset _ _ hr)
  · exact List.Pairwise.sublist (List.take_sublist _ _) (pairwise_sortByScoreAsc _)

/-- Witness for `bm25_fallback_behavior` at a concrete one-row candidate
list. -/
theorem bm25_fallback_behavior_witness :
    (∀ r ∈ search_hybrid false [] (fun _ => none) [ftsLow] 3, r ∈ [ftsLow]) ∧
    (search_hybrid false [] (fun _ => none) [ftsLow] 3).length ≤ 3 ∧
    (search_hybrid false [] (fun _ => none) [ftsLow] 3).Pairwise
      (fun a b => a.score ≤ b.score) :=
  bm25_fallback_behavior [] (fun _ => none) [ftsLow] 3

/- ## PDF chunking (`pdf_parser.rs`) -/

/-- Rust `text.split("\n\n")` specialised to the blank-line separator of
`chunk_pdf_text`: scan left to right, cutting at each occurrence of two
consecutive newlines.  `acc` holds the current piece reversed. -/
def splitBlankAux (acc : List Char) : List Char → List String
  | '\n' :: '\n' :: rest => String.mk acc.reverse :: splitBlankAux [] rest
  | c :: rest => splitBlankAux (c :: acc) rest
  | [] => [String.mk acc.reverse]

/-- `text.split("\n\n")` on a string. -/
def rustSplitBlank (s : String) : List String := splitBlankAux [] s.data

/-- `Chunk` from `models.rs` with its `ChunkMetadata` inlined (database ids
and timestamps are not modelled; no claim mentions them). -/
structure Chunk where
  doc_id : Int
  content : String
  headers : List String
  chunk_type : String
  language : Option String
  start_line : Nat
  end_line : Nat
  deriving DecidableEq, Repr

/-- The `for (idx, para) in paragraphs.iter().enumerate()` loop of
`chunk_pdf_text`: paragraphs whose trimmed content is shorter than 20
characters are skipped but still consume an index. -/
def chunk_pdf_go (doc_id : Int) : Nat → List String → List Chunk
  | _, [] => []
  | idx, p :: ps =>
      if (rustTrim p).length < 20 then chunk_pdf_go doc_id (idx + 1) ps
      else
        { doc_id := doc_id, content := rustTrim p, headers := [],
          chunk_type := "pdf", language := none,
          start_line := idx + 1, end_line := idx + 1 }
          :: chunk_pdf_go doc_id (idx + 1) ps

/-- `chunk_pdf_text` from `pdf_parser.rs`. -/
def chunk_pdf_text (doc_id : Int) (text : String) (page_count : Nat) :
    List Chunk :=
  if ((rustSplitBlank text).filter (fun p => !(rustTrim p).isEmpty)).isEmpty then
    [{ doc_id := doc_id, content := text, headers := [], chunk_type := "pdf",
       language := none, start_line := 1, end_line := page_count }]
  else
    chunk_pdf_go doc_id 0
      ((rustSplitBlank text).filter (fun p => !(rustTrim p).isEmpty))

/-- Counterexample to C10.  The text `"short"` consists of one paragraph
whose (trimmed) length is below 20, so no paragraph survives the length
filter — yet `chunk_pdf_text` emits no chunk at all instead of the claimed
single whole-text chunk: the fallback fires only when the blank-line split
yields no non-empty paragraph, which is a strictly smaller set of inputs. -/
theorem pdf_short_paragraph_counterexample :
    chunk_pdf_text 1 "short" 3 = [] ∧ (rustTrim "short").length < 20 := by
  decide

/-- The body of the paragraph loop of `chunk_pdf_text`, as a function of the
enumerated pair `(idx, para)`: `none` when the trimmed paragraph is dropped
for being shorter than 20 characters, otherwise the emitted chunk. -/
def pdfChunkOfPara (doc_id : Int) (ip : Nat × String) : Option Chunk :=
  if (rustTrim ip.2).length < 20 then none
  else some { doc_id := doc_id, content := rustTrim ip.2, headers := [],
              chunk_type := "pdf", language := none,
              start_line := ip.1 + 1, end_line := ip.1 + 1 }

theorem chunk_pdf_go_enumFrom (doc_id : Int) (i : Nat) (ps : List String) :
    chunk_pdf_go doc_id i ps
      = (ps.enumFrom i).filterMap (pdfChunkOfPara doc_id) := by
  induction ps generalizing i with
  | nil => rfl
  | cons p ps ih =>
      rw [List.enumFrom_cons]
      by_cases h : (rustTrim p).length < 20
      · rw [List.filterMap_cons_none (by simp [pdfChunkOfPara, h]), ← ih]
        simp only [chunk_pdf_go, if_pos h]
      · have hf : pdfChunkOfPara doc_id (i, p)
            = some { doc_id := doc_id, content := rustTrim p, headers := [],
                     chunk_type := "pdf", language := none,
                     start_line := i + 1, end_line := i + 1 } := by
          simp only [pdfChunkOfPara, if_neg h]
        rw [List.filterMap_cons_some hf, ← ih]
        simp only [chunk_pdf_go, if_neg h]

/-- C10 as amended.  The paragraphs are the blank-line-separated pieces whose
trimmed content is non-empty.  If there are none (empty or whitespace-only
text), one chunk covering the whole text is emitted with lines
`1..page_count`.  Otherwise each paragraph whose trimmed content has length
`≥ 20` is emitted — `chunk_type = "pdf"`, empty header stack,
`start_line = end_line =` the paragraph's 1-based index among the non-empty
paragraphs — while shorter paragraphs are dropped (still consuming their
index); in particular, when paragraphs exist but all are shorter than 20
characters, no chunk at all is emitted (`pdf_short_paragraph_counterexample`),
not the claimed whole-text fallback chunk. -/
theorem chunk_pdf_text_spec (doc_id : Int) (text : String) (page_count : Nat) :
    ((rustSplitBlank text).filter (fun p => !(rustTrim p).isEmpty) = [] →
      chunk_pdf_text doc_id text page_count
        = [{ doc_id := doc_id, content := text, headers := [],
             chunk_type := "pdf", language := none,
             start_line := 1, end_line := page_count }]) ∧
    ((rustSplitBlank text).filter (fun p => !(rustTrim p).isEmpty) ≠ [] →
      chunk_pdf_text doc_id text page_count
        = ((((rustSplitBlank text).filter
              (fun p => !(rustTrim p).isEmpty)).enumFrom 0).filterMap
            (pdfChunkOfPara doc_id))) := by
  constructor
  · intro h
    unfold chunk_pdf_text
    rw [if_pos (List.isEmpty_eq_true.2 h)]
  · intro h
    unfold chunk_pdf_text
    rw [if_neg (by simpa using h), chunk_pdf_go_enumFrom]

/-- Concrete PDF text with one short and one long paragraph. -/
def pdfTextEx : String := "tiny\n\nThis paragraph is long enough to keep."

/-- Witness for `chunk_pdf_text_spec` at `pdfTextEx`: the short paragraph is
dropped and the long one is emitted with `start_line = end_line = 2`, its
1-based paragraph index. -/
theorem chunk_pdf_text_spec_witness :
    ((rustSplitBlank pdfTextEx).filter (fun p => !(rustTrim p).isEmpty) ≠ [] →
      chunk_pdf_text 7 pdfTextEx 2
        = ((((rustSplitBlank pdfTextEx).filter
              (fun p => !(rustTrim p).isEmpty)).enumFrom 0).filterMap
            (pdfChunkOfPara 7))) ∧
    ((rustSplitBlank pdfTextEx).filter (fun p => !(rustTrim p).isEmpty) ≠ []) ∧
    chunk_pdf_text 7 pdfTextEx 2
      = [{ doc_id := 7, content := "This paragraph is long enough to keep.",
           headers := [], chunk_type := "pdf", language := none,
           start_line := 2, end_line := 2 }] :=
  ⟨(chunk_pdf_text_spec 7 pdfTextEx 2).2, by decide, by decide⟩

/- ## Smart diff (`commands.rs`, `update_file_incremental`) -/

/-- An existing chunk row as read back by the smart diff: its content and its
stored embedding blob (`none` when the `embedding` column is SQL NULL).
Blob bytes are modelled as `List Nat`. -/
structure OldChunkRow where
  content : String
  embedding : Option (List Nat)
  deriving DecidableEq, Repr

/-- The `old_embeddings` map of `update_file_incremental`: for every old
chunk that has a stored embedding, insert `hash(content) ↦ embedding`
(later rows overwrite earlier ones, as `HashMap::insert` does); chunks whose
embedding is NULL are skipped by the `if let Ok((content, Some(embedding)))`
pattern.  The SHA-256 hex digest is abstracted as the parameter `hash`. -/
def old_embeddings_map (hash : String → String) (old : List OldChunkRow) :
    String → Option (List Nat) :=
  old.foldl (fun m row =>
    match row.embedding with
    | some e => fun k => if k = hash row.content then some e else m k
    | none => m) (fun _ => none)

/-- The `chunks_needing_embeddings` accumulation loop: the new chunk contents
whose content hash misses the `old_embeddings` map, in order.  These are
exactly the texts later passed to `embed_batch` (which is invoked only when
this list is non-empty). -/
def chunks_needing_embeddings (hash : String → String)
    (m : String → Option (List Nat)) (newContents : List String) :
    List String :=
  newContents.filter (fun c => (m (hash c)).isNone)

/-- The `chunk_embeddings` assignment loop of `update_file_incremental`:
reuse the old blob on a hash hit, otherwise consume the next newly generated
embedding (serialised to bytes), or store `none` when the model produced
nothing; `j` is the running `new_embedding_idx`. -/
def assign_embeddings (m : String → Option (List Nat))
    (hash : String → String) (newEmbs : Option (List (List Nat))) :
    Nat → List String → List (Option (List Nat))
  | _, [] => []
  | j, c :: cs =>
      match m (hash c) with
      | some old => some old :: assign_embeddings m hash newEmbs j cs
      | none =>
          match newEmbs with
          | some es =>
              (if h : j < es.length then some (es.get ⟨j, h⟩) else none)
                :: assign_embeddings m hash newEmbs (j + 1) cs
          | none => none :: assign_embeddings m hash newEmbs j cs

/-- Counterexample to C5.  The old document has one chunk with content `"A"`
whose stored embedding is NULL; the new chunk list is `["A"]`.  There is
`k = 1` content-hash match against the old chunks' contents, so the claim
requires `embed_batch` to receive `1 − 1 = 0` texts — but the code only
reuses embeddings of old chunks that actually have one, so the matching
chunk is still sent for embedding (1 text). -/
theorem smart_diff_counterexample :
    (([⟨"A", none⟩] : List OldChunkRow).map (fun r => r.content) = ["A"]) ∧
    (chunks_needing_embeddings id
        (old_embeddings_map id [⟨"A", none⟩]) ["A"]).length = 1 := by
  constructor
  · rfl
  · rfl

theorem old_embeddings_fold_isSome (hash : String → String)
    (old : List OldChunkRow) (m : String → Option (List Nat)) (k : String) :
    ((old.foldl (fun m row =>
        match row.embedding with
        | some e => fun k => if k = hash row.content then some e else m k
        | none => m) m) k).isSome
      = (old.any (fun r => r.embedding.isSome && k == hash r.content)
          || (m k).isSome) := by
  induction old generalizing m with
  | nil => simp
  | cons r rest ih =>
      rw [List.foldl_cons, List.any_cons, ih]
      cases hr : r.embedding with
      | none => simp [hr]
      | some e =>
          by_cases hk : k = hash r.content
          · simp [hr, hk]
          · simp [hr, hk, Bool.or_assoc]

theorem old_embeddings_fold_mem (hash : String → String)
    (old : List OldChunkRow) (m : String → Option (List Nat))
    (k : String) (b : List Nat)
    (h : (old.foldl (fun m row =>
        match row.embedding with
        | some e => fun k => if k = hash row.content then some e else m k
        | none => m) m) k = some b) :
    (∃ r ∈ old, hash r.content = k ∧ r.embedding = some b) ∨ m k = some b := by
  induction old generalizing m with
  | nil => exact Or.inr h
  | cons r rest ih =>
      rw [List.foldl_cons] at h
      rcases ih _ h with ⟨r', hr', hk', hb'⟩ | hm
      · exact Or.inl ⟨r', List.mem_cons_of_mem r hr', hk', hb'⟩
      · cases hr : r.embedding with
        | none =>
            rw [hr] at hm
            exact Or.inr hm
        | some e =>
            rw [hr] at hm
            have hm' : (if k = hash r.content then some e else m k) = some b := hm
            by_cases hk : k = hash r.content
            · rw [if_pos hk] at hm'
              cases hm'
              exact Or.inl ⟨r, List.mem_cons_self r rest, hk.symm, hr⟩
            · rw [if_neg hk] at hm'
              exact Or.inr hm' 

theorem filter_length_partition {α : Type} (p : α → Bool) (l : List α) :
    (l.filter p).length + (l.filter (fun a => !p a)).length = l.length := by
  induction l with
  | nil => rfl
  | cons a l ih =>
      by_cases h : p a = true
      · simp [List.filter_cons, h, ← ih]
        omega
      · simp [List.filter_cons, h, Bool.not_eq_true] at *
        omega

theorem assign_embeddings_cons_some (m : String → Option (List Nat))
    (hash : String → String) (newEmbs : Option (List (List Nat)))
    (j : Nat) (c : String) (cs : List String) (b : List Nat)
    (hm : m (hash c) = some b) :
    assign_embeddings m hash newEmbs j (c :: cs)
      = some b :: assign_embeddings m hash newEmbs j cs := by
  simp only [assign_embeddings, hm]

theorem assign_embeddings_cons_fresh (m : String → Option (List Nat))
    (hash : String → String) (es : List (List Nat))
    (j : Nat) (c : String) (cs : List String)
    (hm : m (hash c) = none) :
    assign_embeddings m hash (some es) j (c :: cs)
      = (if h : j < es.length then some (es.get ⟨j, h⟩) else none)
          :: assign_embeddings m hash (some es) (j + 1) cs := by
  simp only [assign_embeddings, hm]

theorem assign_embeddings_cons_bare (m : String → Option (List Nat))
    (hash : String → String) (j : Nat) (c : String) (cs : List String)
    (hm : m (hash c) = none) :
    assign_embeddings m hash none j (c :: cs)
      = none :: assign_embeddings m hash none j cs := by
  simp only [assign_embeddings, hm]

theorem assign_embeddings_reuse (m : String → Option (List Nat))
    (hash : String → String) (newEmbs : Option (List (List Nat)))
    (cs : List String) (j i : Nat) (c : String) (b : List Nat)
    (hc : cs.get? i = some c) (hm : m (hash c) = some b) :
    (assign_embeddings m hash newEmbs j cs).get? i = some (some b) := by
  induction cs generalizing i j with
  | nil => simp [List.get?] at hc
  | cons c0 cs ih =>
      cases i with
      | zero =>
          rw [List.get?_cons_zero] at hc
          injection hc with hc0
          subst hc0
          rw [assign_embeddings_cons_some _ _ _ _ _ _ _ hm,
            List.get?_cons_zero]
      | succ i =>
          rw [List.get?_cons_succ] at hc
          cases h0 : m (hash c0) with
          | some b0 =>
              rw [assign_embeddings_cons_some _ _ _ _ _ _ _ h0,
                List.get?_cons_succ]
              exact ih _ _ hc
          | none =>
              cases hne : newEmbs with
              | some es =>
                  rw [hne] at ih
                  rw [assign_embeddings_cons_fresh _ _ _ _ _ _ h0,
                    List.get?_cons_succ]
                  exact ih _ _ hc
              | none =>
                  rw [hne] at ih
                  rw [assign_embeddings_cons_bare _ _ _ _ _ h0,
                    List.get?_cons_succ]
                  exact ih _ _ hc

/-- C5 as amended.  Only old chunks with a stored (non-NULL) embedding enter
the reuse map, so with `k` = the number of new chunks whose content matches
an old chunk *that has a stored embedding*: the `embed_batch` input list has
exactly `new_chunk_count − k` texts (and `embed_batch` is only invoked when
that list is non-empty); every map hit descends from an old row with equal
content and exactly the stored bytes; and every new chunk whose hash hits
the map is assigned exactly those prior embedding bytes. -/
theorem smart_diff_embed_count (hash : String → String)
    (hinj : Function.Injective hash) (old : List OldChunkRow)
    (newContents : List String) :
    (chunks_needing_embeddings hash (old_embeddings_map hash old)
        newContents).length
      = newContents.length
        - (newContents.filter (fun c =>
            old.any (fun r => r.embedding.isSome && r.content == c))).length ∧
    (∀ c b, old_embeddings_map hash old (hash c) = some b →
      ∃ r ∈ old, r.content = c ∧ r.embedding = some b) ∧
    (∀ newEmbs j i c b, newContents.get? i = some c →
      old_embeddings_map hash old (hash c) = some b →
      (assign_embeddings (old_embeddings_map hash old) hash newEmbs j
          newContents).get? i = some (some b)) := by
  refine ⟨?_, ?_, ?_⟩
  · have hpt : ∀ c ∈ newContents,
        ((old_embeddings_map hash old (hash c)).isNone
          = !(old.any (fun r => r.embedding.isSome && r.content == c))) := by
      intro c _
      have h3 : old.any (fun r =>
            r.embedding.isSome && hash c == hash r.content)
          = old.any (fun r => r.embedding.isSome && r.content == c) := by
        induction old with
        | nil => rfl
        | cons r rest ih =>
            rw [List.any_cons, List.any_cons, ih]
            congr 1
            congr 1
            by_cases h : r.content = c
            · rw [h]
              simp
            · have h2' : hash c ≠ hash r.content := fun he => h (hinj he).symm
              rw [beq_eq_false_iff_ne.2 h2', beq_eq_false_iff_ne.2 h]
      have h2 : (old_embeddings_map hash old (hash c)).isSome
          = old.any (fun r =>
              r.embedding.isSome && hash c == hash r.content) := by
        rw [old_embeddings_map, old_embeddings_fold_isSome]
        simp
      rw [← h3, ← h2]
      cases old_embeddings_map hash old (hash c) <;> rfl
    unfold chunks_needing_embeddings
    rw [List.filter_congr hpt]
    have hpart := filter_length_partition (fun c =>
      old.any (fun r => r.embedding.isSome && r.content == c)) newContents
    omega
  · intro c b hb
    rcases old_embeddings_fold_mem hash old (fun _ => none) (hash c) b hb with
      ⟨r, hr, hk, he⟩ | hno
    · exact ⟨r, hr, hinj hk, he⟩
    · exact absurd hno (by simp)
  · intro newEmbs j i c b hc hb
    exact assign_embeddings_reuse (old_embeddings_map hash old) hash newEmbs
      newContents j i c b hc hb

/-- Old chunk rows for the smart-diff witness: one with a stored embedding,
one with a NULL embedding. -/
def oldRowsEx : List OldChunkRow :=
  [{ content := "kept", embedding := some [1, 2] },
   { content := "bare", embedding := none }]

/-- New chunk contents for the smart-diff witness. -/
def newContentsEx : List String := ["kept", "bare", "fresh"]

/-- Witness for `smart_diff_embed_count` at `hash = id` (injective): of the
three new chunks, only `"kept"` matches an old chunk with a stored embedding,
so two texts go to `embed_batch` (3 − 1 = 2). -/
theorem smart_diff_embed_count_witness :
    (chunks_needing_embeddings id (old_embeddings_map id oldRowsEx)
        newContentsEx).length = 2 ∧
    ((chunks_needing_embeddings id (old_embeddings_map id oldRowsEx)
        newContentsEx).length
      = newContentsEx.length
        - (newContentsEx.filter (fun c =>
            oldRowsEx.any (fun r => r.embedding.isSome && r.content == c))).length ∧
    (∀ c b, old_embeddings_map id oldRowsEx (id c) = some b →
      ∃ r ∈ oldRowsEx, r.content = c ∧ r.embedding = some b) ∧
    (∀ newEmbs j i c b, newContentsEx.get? i = some c →
      old_embeddings_map id oldRowsEx (id c) = some b →
      (assign_embeddings (old_embeddings_map id oldRowsEx) id newEmbs j
          newContentsEx).get? i = some (some b))) :=
  ⟨by decide, smart_diff_embed_count id (fun a b h => h) oldRowsEx newContentsEx⟩

/- ## Store state, ingestion write units (`commands.rs`) and ghost cleanup
(`db.rs`)

The relational state is reduced to the rows the claims mention: `documents`,
`chunks`, and the `chunks_fts` inverted-index entries (keyed by chunk rowid).
Deleting a document cascades to its chunks (`ON DELETE CASCADE` in
`create_schema`) and the `chunks_ad` trigger removes the FTS rows of deleted
chunks; inserting a chunk fires `chunks_ai`, adding its FTS row. -/

/-- A `documents` row (the columns the claims mention). -/
structure DocRow where
  id : Int
  collection_id : Int
  path : String
  hash : String
  deriving DecidableEq, Repr

/-- A `chunks` row (the columns the claims mention). -/
structure DbChunkRow where
  id : Int
  doc_id : Int
  content : String
  embedding : Option (List Nat)
  deriving DecidableEq, Repr

/-- The store state: document rows, chunk rows, and the FTS rowids. -/
structure DbState where
  docs : List DocRow
  chunks : List DbChunkRow
  fts : List Int
  deriving DecidableEq, Repr

/-- The primitive SQL statements the two ingestion paths execute. -/
inductive DbOp where
  | delete_document_at (collection_id : Int) (path : String)
  | insert_document (d : DocRow)
  | insert_chunk (c : DbChunkRow)
  | update_collection_meta
  deriving DecidableEq, Repr

/-- Effect of one statement, with cascades and triggers as declared in
`create_schema` (`update_collection_meta` touches only the `collections`
table, which is outside this state). -/
def applyOp (s : DbState) : DbOp → DbState
  | .delete_document_at cid p =>
      let removedDocIds := (s.docs.filter
        (fun d => d.collection_id == cid && d.path == p)).map (fun d => d.id)
      let removedChunkIds := (s.chunks.filter
        (fun c => removedDocIds.contains c.doc_id)).map (fun c => c.id)
      { docs := s.docs.filter (fun d => !(d.collection_id == cid && d.path == p)),
        chunks := s.chunks.filter (fun c => !removedDocIds.contains c.doc_id),
        fts := s.fts.filter (fun i => !removedChunkIds.contains i) }
  | .insert_document d => { s with docs := s.docs ++ [d] }
  | .insert_chunk c => { s with chunks := s.chunks ++ [c], fts := s.fts ++ [c.id] }
  | .update_collection_meta => s

/-- A write unit: either one SQLite transaction (all of its statements become
visible atomically at commit) or a single autocommitted statement. -/
inductive WriteUnit where
  | tx (ops : List DbOp)
  | single (op : DbOp)

/-- Effect of one write unit. -/
def applyUnit (s : DbState) : WriteUnit → DbState
  | .tx ops => ops.foldl applyOp s
  | .single op => applyOp s op

/-- The store states visible from outside while a list of write units
executes: the initial state and the state after each unit commits. -/
def visibleStates (s : DbState) : List WriteUnit → List DbState
  | [] => [s]
  | u :: us => s :: visibleStates (applyUnit s u) us

/-- The write units of `update_file_incremental` (`commands.rs`,
`conn.transaction()` … `tx.commit()`): one transaction holding the document
delete, the document insert, all chunk inserts, and the collection-metadata
update. -/
def update_file_incremental_units (cid : Int) (path : String) (newDoc : DocRow)
    (newChunks : List DbChunkRow) : List WriteUnit :=
  [.tx ([.delete_document_at cid path, .insert_document newDoc]
      ++ newChunks.map DbOp.insert_chunk ++ [.update_collection_meta])]

/-- The write units `index_directory` executes for one changed file: the
producer runs the document delete and document insert as plain
`conn.execute` calls (each its own implicit transaction), and the consumer
later inserts each chunk with its own `conn.execute` — no transaction spans
them. -/
def index_directory_file_units (cid : Int) (path : String) (newDoc : DocRow)
    (newChunks : List DbChunkRow) : List WriteUnit :=
  [.single (.delete_document_at cid path), .single (.insert_document newDoc)]
    ++ newChunks.map (fun c => WriteUnit.single (.insert_chunk c))

/-- Document row of the atomicity counterexample. -/
def docEx : DocRow := { id := 1, collection_id := 1, path := "a.md", hash := "h1" }

/-- Chunk row of the atomicity counterexample. -/
def chunkEx : DbChunkRow := { id := 1, doc_id := 1, content := "hello", embedding := none }

/-- Counterexample to C6.  Indexing one new file with one chunk through
`index_directory` exposes an intermediate visible state — the new document
row present with no chunks — that is neither the pre-upsert state nor the
complete post-upsert state: the full-directory path performs no
transaction around the document delete/insert and the chunk inserts. -/
theorem index_directory_not_atomic :
    (DbState.mk [docEx] [] [] ∈
      visibleStates (DbState.mk [] [] [])
        (index_directory_file_units 1 "a.md" docEx [chunkEx])) ∧
    DbState.mk [docEx] [] [] ≠ DbState.mk [] [] [] ∧
    DbState.mk [docEx] [] [] ≠ DbState.mk [docEx] [chunkEx] [1] ∧
    (visibleStates (DbState.mk [] [] [])
        (index_directory_file_units 1 "a.md" docEx [chunkEx])).getLast?
      = some (DbState.mk [docEx] [chunkEx] [1]) := by decide

theorem foldl_insert_chunks (s : DbState) (cs : List DbChunkRow) :
    cs.foldl (fun t c => applyOp t (.insert_chunk c)) s
      = { s with chunks := s.chunks ++ cs,
                 fts := s.fts ++ cs.map (fun c => c.id) } := by
  induction cs generalizing s with
  | nil => simp
  | cons c cs ih =>
      rw [List.foldl_cons, ih]
      simp [applyOp, List.append_assoc]

theorem applyOp_insert_chunk_eq (s : DbState) (c : DbChunkRow) :
    applyOp s (.insert_chunk c)
      = { s with chunks := s.chunks ++ [c], fts := s.fts ++ [c.id] } := rfl

/-- C6 as amended.  The single-file incremental update is atomic: its whole
upsert runs in one transaction, so the only visible states are the
pre-upsert state and the complete post-upsert state — old document rows at
`(collection_id, path)` deleted with their chunks and index entries
cascaded, the new document row present, and all new chunks present with
their index entries.  (The full-directory path gives no such guarantee:
`index_directory_not_atomic`.) -/
theorem incremental_upsert_atomic (cid : Int) (path : String) (newDoc : DocRow)
    (newChunks : List DbChunkRow) (s : DbState) :
    ∀ t ∈ visibleStates s
        (update_file_incremental_units cid path newDoc newChunks),
      t = s ∨
      t = { docs := (applyOp s (.delete_document_at cid path)).docs ++ [newDoc],
            chunks := (applyOp s (.delete_document_at cid path)).chunks
              ++ newChunks,
            fts := (applyOp s (.delete_document_at cid path)).fts
              ++ newChunks.map (fun c => c.id) } := by
  intro t ht
  simp only [update_file_incremental_units, visibleStates, List.mem_cons,
    List.mem_singleton, List.not_mem_nil, or_false] at ht
  rcases ht with rfl | rfl
  · exact Or.inl rfl
  · right
    show (([DbOp.delete_document_at cid path, DbOp.insert_document newDoc]
        ++ newChunks.map DbOp.insert_chunk
        ++ [DbOp.update_collection_meta]).foldl applyOp s) = _
    rw [List.foldl_append, List.foldl_append]
    rw [show ([DbOp.delete_document_at cid path,
        DbOp.insert_document newDoc].foldl applyOp s)
      = { (applyOp s (.delete_document_at cid path)) with
          docs := (applyOp s (.delete_document_at cid path)).docs ++ [newDoc] }
      from rfl]
    rw [show ∀ (t : DbState), (newChunks.map DbOp.insert_chunk).foldl applyOp t
        = newChunks.foldl (fun t c => applyOp t (.insert_chunk c)) t
      from fun t => (List.foldl_map _ _ _ _).symm ▸ rfl]
    rw [foldl_insert_chunks]
    rfl

/-- Witness for `incremental_upsert_atomic` from the empty store: the only
visible states are the empty pre-state and the complete post-state. -/
theorem incremental_upsert_atomic_witness :
    (∀ t ∈ visibleStates (DbState.mk [] [] [])
        (update_file_incremental_units 1 "a.md" docEx [chunkEx]),
      t = DbState.mk [] [] [] ∨
      t = { docs := (applyOp (DbState.mk [] [] [])
              (.delete_document_at 1 "a.md")).docs ++ [docEx],
            chunks := (applyOp (DbState.mk [] [] [])
              (.delete_document_at 1 "a.md")).chunks ++ [chunkEx],
            fts := (applyOp (DbState.mk [] [] [])
              (.delete_document_at 1 "a.md")).fts
              ++ [chunkEx].map (fun c => c.id) }) ∧
    visibleStates (DbState.mk [] [] [])
        (update_file_incremental_units 1 "a.md" docEx [chunkEx])
      = [DbState.mk [] [] [], DbState.mk [docEx] [chunkEx] [1]] :=
  ⟨incremental_upsert_atomic 1 "a.md" docEx [chunkEx] (DbState.mk [] [] []),
   by decide⟩

/- ## Ghost cleanup (`db.rs`, `cleanup_ghost_data`) -/

/-- `DELETE FROM documents WHERE id = ?`, with the schema's
`ON DELETE CASCADE` removing the document's chunks and the `chunks_ad`
trigger removing their FTS entries. -/
def delete_document_by_id (s : DbState) (docId : Int) : DbState :=
  let removedChunkIds := (s.chunks.filter
    (fun c => c.doc_id == docId)).map (fun c => c.id)
  { docs := s.docs.filter (fun d => !(d.id == docId)),
    chunks := s.chunks.filter (fun c => !(c.doc_id == docId)),
    fts := s.fts.filter (fun i => !removedChunkIds.contains i) }

/-- One iteration of the `for (doc_id, path) in docs` loop of
`cleanup_ghost_data`: delete and count when the path no longer exists
(`onDisk` models `Path::new(&path).exists()`). -/
def cleanup_step (onDisk : String → Bool) (acc : DbState × Nat)
    (ip : Int × String) : DbState × Nat :=
  if onDisk ip.2 then acc else (delete_document_by_id acc.1 ip.1, acc.2 + 1)

/-- `cleanup_ghost_data` from `db.rs`: snapshot `(id, path)` of every
document row, then delete each ghost, returning the new state and the count
of deleted documents. -/
def cleanup_ghost_data (onDisk : String → Bool) (s : DbState) : DbState × Nat :=
  (s.docs.map (fun d => (d.id, d.path))).foldl (cleanup_step onDisk) (s, 0)

theorem filter_subset_self {α : Type} (p : α → Bool) (l : List α) :
    l.filter p ⊆ l :=
  fun _ hx => (List.mem_filter.1 hx).1

theorem delete_document_kills_docs (s : DbState) (i : Int) :
    ∀ d ∈ (delete_document_by_id s i).docs, d.id ≠ i := by
  intro d hd
  have := (List.mem_filter.1 hd).2
  simpa using this

theorem delete_document_kills_chunks (s : DbState) (i : Int) :
    ∀ c ∈ s.chunks, c.doc_id = i → c ∉ (delete_document_by_id s i).chunks := by
  intro c _ hdoc hmem
  have := (List.mem_filter.1 hmem).2
  simp [hdoc] at this

theorem delete_document_kills_fts (s : DbState) (i : Int) :
    ∀ c ∈ s.chunks, c.doc_id = i → c.id ∉ (delete_document_by_id s i).fts := by
  intro c hc hdoc hmem
  have h2 := (List.mem_filter.1 hmem).2
  have h3 : c.id ∈ ((s.chunks.filter
      (fun c => c.doc_id == i)).map (fun c => c.id)) :=
    List.mem_map.2 ⟨c, List.mem_filter.2 ⟨hc, by simp [hdoc]⟩, rfl⟩
  simp only [Bool.not_eq_true', List.contains, List.elem_eq_mem,
    decide_eq_false_iff_not] at h2
  exact h2 h3

theorem delete_document_subsets (s : DbState) (i : Int) :
    (delete_document_by_id s i).docs ⊆ s.docs ∧
    (delete_document_by_id s i).chunks ⊆ s.chunks ∧
    (delete_document_by_id s i).fts ⊆ s.fts :=
  ⟨filter_subset_self _ _, filter_subset_self _ _, filter_subset_self _ _⟩

theorem cleanup_step_subsets (onDisk : String → Bool) (acc : DbState × Nat)
    (ip : Int × String) :
    (cleanup_step onDisk acc ip).1.docs ⊆ acc.1.docs ∧
    (cleanup_step onDisk acc ip).1.chunks ⊆ acc.1.chunks ∧
    (cleanup_step onDisk acc ip).1.fts ⊆ acc.1.fts := by
  unfold cleanup_step
  split
  · exact ⟨List.Subset.refl _, List.Subset.refl _, List.Subset.refl _⟩
  · exact delete_document_subsets _ _

theorem cleanup_fold_subsets (onDisk : String → Bool)
    (l : List (Int × String)) (acc : DbState × Nat) :
    (l.foldl (cleanup_step onDisk) acc).1.docs ⊆ acc.1.docs ∧
    (l.foldl (cleanup_step onDisk) acc).1.chunks ⊆ acc.1.chunks ∧
    (l.foldl (cleanup_step onDisk) acc).1.fts ⊆ acc.1.fts := by
  induction l generalizing acc with
  | nil => exact ⟨List.Subset.refl _, List.Subset.refl _, List.Subset.refl _⟩
  | cons ip l ih =>
      rw [List.foldl_cons]
      rcases ih (cleanup_step onDisk acc ip) with ⟨h1, h2, h3⟩
      rcases cleanup_step_subsets onDisk acc ip with ⟨g1, g2, g3⟩
      exact ⟨h1.trans g1, h2.trans g2, h3.trans g3⟩

theorem cleanup_fold_count (onDisk : String → Bool)
    (l : List (Int × String)) (acc : DbState × Nat) :
    (l.foldl (cleanup_step onDisk) acc).2
      = acc.2 + (l.filter (fun ip => !onDisk ip.2)).length := by
  induction l generalizing acc with
  | nil => simp
  | cons ip l ih =>
      rw [List.foldl_cons, ih, List.filter_cons]
      unfold cleanup_step
      by_cases hq : onDisk ip.2 = true
      · simp [hq]
      · simp only [Bool.not_eq_true] at hq
        simp [hq]
        omega

theorem cleanup_fold_kill (onDisk : String → Bool) (l : List (Int × String))
    (i : Int) (p : String) (hg : onDisk p = false) :
    ∀ acc : DbState × Nat, (i, p) ∈ l →
    (∀ d ∈ (l.foldl (cleanup_step onDisk) acc).1.docs, d.id ≠ i) ∧
    (∀ c ∈ acc.1.chunks, c.doc_id = i →
      c ∉ (l.foldl (cleanup_step onDisk) acc).1.chunks ∧
      c.id ∉ (l.foldl (cleanup_step onDisk) acc).1.fts) := by
  induction l with
  | nil =>
      intro acc hip
      exact absurd hip (List.not_mem_nil _)
  | cons jq l ih =>
      intro acc hip
      rw [List.foldl_cons]
      by_cases hq : onDisk jq.2 = true
      · have hstep : cleanup_step onDisk acc jq = acc := by
          unfold cleanup_step
          rw [if_pos hq]
        rw [hstep]
        have hip' : (i, p) ∈ l := by
          rcases List.mem_cons.1 hip with heq | h
          · rw [← heq] at hq
            have hpt : onDisk p = true := hq
            rw [hg] at hpt
            exact absurd hpt (by simp)
          · exact h
        exact ih acc hip'
      · have hstep : cleanup_step onDisk acc jq
            = (delete_document_by_id acc.1 jq.1, acc.2 + 1) := by
          unfold cleanup_step
          rw [if_neg hq]
        rw [hstep]
        by_cases hji : jq.1 = i
        · subst hji
          constructor
          · intro d hd
            exact delete_document_kills_docs acc.1 jq.1 d
              ((cleanup_fold_subsets onDisk l _).1 hd)
          · intro c hc hdoc
            constructor
            · intro hmem
              exact delete_document_kills_chunks acc.1 jq.1 c hc hdoc
                ((cleanup_fold_subsets onDisk l _).2.1 hmem)
            · intro hmem
              exact delete_document_kills_fts acc.1 jq.1 c hc hdoc
                ((cleanup_fold_subsets onDisk l _).2.2 hmem)
        · have hip' : (i, p) ∈ l := by
            rcases List.mem_cons.1 hip with heq | h
            · exact absurd (congrArg Prod.fst heq).symm hji
            · exact h
          rcases ih (delete_document_by_id acc.1 jq.1, acc.2 + 1) hip' with
            ⟨h1, h2⟩
          refine ⟨h1, ?_⟩
          intro c hc hdoc
          have hc1 : c ∈ (delete_document_by_id acc.1 jq.1).chunks := by
            refine List.mem_filter.2 ⟨hc, ?_⟩
            simp only [Bool.not_eq_true']
            rw [beq_eq_false_iff_ne]
            intro hcj
            exact hji (hcj.symm.trans hdoc)
          exact h2 c hc1 hdoc

theorem map_filter_length {α β : Type} (g : α → β) (p : β → Bool)
    (l : List α) :
    ((l.map g).filter p).length = (l.filter (fun a => p (g a))).length := by
  rw [List.filter_map]
  rw [show (p ∘ g) = (fun a => p (g a)) from rfl]
  simp

/-- C7.  For every document whose on-disk file has been deleted,
`cleanup_ghost_data` removes the document row, all of its chunk rows (the
schema's `ON DELETE CASCADE`), and their inverted-index entries (the
`chunks_ad` trigger), and returns the number of ghost documents; afterwards
no document with that id, no chunk of that document, and no index entry of
any of its chunks remains. -/
theorem cleanup_ghost_removes_document (onDisk : String → Bool) (s : DbState)
    (d : DocRow) (hd : d ∈ s.docs) (hghost : onDisk d.path = false) :
    (cleanup_ghost_data onDisk s).2
      = (s.docs.filter (fun x => !onDisk x.path)).length ∧
    (∀ d2 ∈ (cleanup_ghost_data onDisk s).1.docs, d2.id ≠ d.id) ∧
    (∀ c ∈ (cleanup_ghost_data onDisk s).1.chunks, c.doc_id ≠ d.id) ∧
    (∀ c ∈ s.chunks, c.doc_id = d.id →
      c.id ∉ (cleanup_ghost_data onDisk s).1.fts) := by
  have hip : (d.id, d.path) ∈ s.docs.map (fun x => (x.id, x.path)) :=
    List.mem_map.2 ⟨d, hd, rfl⟩
  have hkill := cleanup_fold_kill onDisk
    (s.docs.map (fun x => (x.id, x.path))) d.id d.path hghost (s, 0) hip
  refine ⟨?_, ?_, ?_, ?_⟩
  · unfold cleanup_ghost_data
    rw [cleanup_fold_count, map_filter_length]
    simp
  · exact hkill.1
  · intro c hc hdoc
    have hc0 : c ∈ s.chunks :=
      (cleanup_fold_subsets onDisk _ (s, 0)).2.1 hc
    exact (hkill.2 c hc0 hdoc).1 hc
  · intro c hc hdoc
    exact (hkill.2 c hc hdoc).2

/-- On-disk predicate of the ghost-cleanup witness: only `"keep.md"` still
exists. -/
def onDiskEx : String → Bool := fun p => p == "keep.md"

/-- The ghost document of the witness (its file is gone). -/
def ghostDocEx : DocRow :=
  { id := 2, collection_id := 1, path := "gone.md", hash := "h2" }

/-- The surviving document of the witness. -/
def keptDocEx : DocRow :=
  { id := 3, collection_id := 1, path := "keep.md", hash := "h3" }

/-- Store state of the ghost-cleanup witness: two documents, one chunk each,
both chunks indexed. -/
def dbEx : DbState :=
  { docs := [keptDocEx, ghostDocEx],
    chunks := [{ id := 10, doc_id := 3, content := "k", embedding := none },
               { id := 11, doc_id := 2, content := "g", embedding := none }],
    fts := [10, 11] }

/-- Witness for `cleanup_ghost_removes_document` at `dbEx`: exactly one ghost
document is removed together with its chunk and index entry. -/
theorem cleanup_ghost_removes_document_witness :
    (cleanup_ghost_data onDiskEx dbEx).2 = 1 ∧
    ((cleanup_ghost_data onDiskEx dbEx).2
        = (dbEx.docs.filter (fun x => !onDiskEx x.path)).length ∧
     (∀ d2 ∈ (cleanup_ghost_data onDiskEx dbEx).1.docs,
        d2.id ≠ ghostDocEx.id) ∧
     (∀ c ∈ (cleanup_ghost_data onDiskEx dbEx).1.chunks,
        c.doc_id ≠ ghostDocEx.id) ∧
     (∀ c ∈ dbEx.chunks, c.doc_id = ghostDocEx.id →
        c.id ∉ (cleanup_ghost_data onDiskEx dbEx).1.fts)) :=
  ⟨by decide, cleanup_ghost_removes_document onDiskEx dbEx ghostDocEx
    (by decide) (by decide)⟩
